import Mathlib

/-!
Shallow embedding of the queue-coordinator logic of karaoke_app.py:
the QueueState data model, the host operations (reconcile, call next,
skip, release cleanup, reset) and the Firestore (de)serialization of
the host state, together with theorems settling the specification's
claims about them.
-/

namespace LosEmos

/-- A singer key is the stable identity (name lowercased, phone digits,
song trimmed) used by key_from_record. -/
abbrev SingerKey := String × String × String

/-- The persisted host state: version counter, current performer,
already-performed keys and the pending queue, as read by fs_read_state. -/
structure QueueState where
  version : Nat
  now_key : Option SingerKey
  used_keys : List SingerKey
  order_keys : List SingerKey
deriving DecidableEq, Repr

/-- Python list.insert semantics: insert x before index i, clamping an
index past the end to an append (list.take and list.drop clamp the same
way Python slicing does). -/
def pyInsert {α : Type} (i : Nat) (x : α) (l : List α) : List α :=
  l.take i ++ x :: l.drop i

/-- Python list.index semantics: the position of the first occurrence
of x (callers guard membership, as the source does with `in`). -/
def pyIndex {α : Type} [DecidableEq α] (x : α) : List α → Nat
  | [] => 0
  | a :: t => if a = x then 0 else pyIndex x t + 1

/-- Embedding of call_next_singer_txn: normalize the pending queue
against the live signup keys, move the previous now_key into used_keys
when it is set and not already used, pop the front of the queue into
now_key, and bump the version. The returned pair is (the value the
transaction returns, the state it persists). -/
def call_next_singer_txn (live : List SingerKey) (st : QueueState) :
    Option SingerKey × QueueState :=
  let order1 := st.order_keys.filter
    (fun k => decide (k ∈ live ∧ k ∉ st.used_keys ∧ st.now_key ≠ some k))
  let used1 :=
    match st.now_key with
    | some nk => if nk ∈ st.used_keys then st.used_keys else st.used_keys ++ [nk]
    | none => st.used_keys
  let new_now := order1.head?
  (new_now,
    { version := st.version + 1
      now_key := new_now
      used_keys := used1
      order_keys := order1.tail })

/-- Embedding of skip_singer_txn, choice_type = "current": on a key
mismatch the transaction raises and persists nothing (the state
component is unchanged); otherwise it clears now_key, removes stray
occurrences of the key from the queue, reinserts the key at
min 2 (length after removal) and bumps the version. -/
def skip_singer_current (k : SingerKey) (st : QueueState) :
    Except String String × QueueState :=
  if st.now_key ≠ some k then
    (Except.error "Current key mismatch during skip transaction.", st)
  else
    let order1 := st.order_keys.filter (fun x => decide (x ≠ k))
    (Except.ok "current",
      { version := st.version + 1
        now_key := none
        used_keys := st.used_keys
        order_keys := pyInsert (min 2 order1.length) k order1 })

/-- Embedding of skip_singer_txn, choice_type = "next": when the key is
in the queue, remove its first occurrence at old_pos and reinsert it at
min (old_pos + 2) (original length), bumping the version; otherwise
return none and persist nothing. -/
def skip_singer_next (k : SingerKey) (st : QueueState) :
    Option String × QueueState :=
  if k ∈ st.order_keys then
    let old_pos := pyIndex k st.order_keys
    let new_pos := min (old_pos + 2) st.order_keys.length
    (some "next",
      { version := st.version + 1
        now_key := st.now_key
        used_keys := st.used_keys
        order_keys := pyInsert new_pos k (st.order_keys.eraseIdx old_pos) })
  else (none, st)

/-- Embedding of the cleanup block shared by host release and
self-service undo: drop the released key from now_key, order_keys and
used_keys, and bump the version exactly when something changed (when
nothing changed the code skips the write, so the persisted state is the
original one). -/
def release_cleanup (k : SingerKey) (st : QueueState) : QueueState :=
  let now1 := if st.now_key = some k then none else st.now_key
  let order1 :=
    if k ∈ st.order_keys then st.order_keys.filter (fun x => decide (x ≠ k))
    else st.order_keys
  let used1 :=
    if k ∈ st.used_keys then st.used_keys.filter (fun x => decide (x ≠ k))
    else st.used_keys
  { version :=
      if st.now_key = some k ∨ k ∈ st.order_keys ∨ k ∈ st.used_keys then
        st.version + 1
      else st.version
    now_key := now1
    used_keys := used1
    order_keys := order1 }

/-- Embedding of the reset action: the host state written by the reset
button. -/
def reset_state : QueueState :=
  { version := 0, now_key := none, used_keys := [], order_keys := [] }

/-- The normalization pass of the host reconciliation block: keep only
queue keys that are live, not used and not the current performer. -/
def reconcileNormalized (live : List SingerKey) (st : QueueState) : List SingerKey :=
  st.order_keys.filter
    (fun k => decide (k ∈ live ∧ k ∉ st.used_keys ∧ st.now_key ≠ some k))

/-- The new_candidates set of the reconciliation block: live keys that
are not used, not the current performer and not already in the
normalized queue. Python computes this as a set difference, so the
elements are distinct; dedup models that. The enumeration order of the
actual set is arbitrary and then shuffled, so ReconcileStep quantifies
over permutations of this canonical list. -/
def reconcileCandidates (live : List SingerKey) (st : QueueState) : List SingerKey :=
  live.dedup.filter
    (fun k =>
      decide (k ∉ st.used_keys ∧ st.now_key ≠ some k ∧ k ∉ reconcileNormalized live st))

/-- One run of the reconciliation block with a fixed enumeration `cand`
of the new candidates: when there are candidates or normalization
dropped a key, persist the normalized queue extended by the candidates
with the version bumped; otherwise persist nothing. -/
def reconcileWith (live cand : List SingerKey) (st : QueueState) : QueueState :=
  if cand ≠ [] ∨ (reconcileNormalized live st).length ≠ st.order_keys.length then
    { version := st.version + 1
      now_key := st.now_key
      used_keys := st.used_keys
      order_keys := reconcileNormalized live st ++ cand }
  else st

/-- The reconciliation block as a relation on states: some shuffled
enumeration of the new candidates produced the second state from the
first. -/
def ReconcileStep (live : List SingerKey) (st st2 : QueueState) : Prop :=
  ∃ cand, cand.Perm (reconcileCandidates live st) ∧ st2 = reconcileWith live cand st

/-- The disjointness invariant of the specification: now_key, used_keys
and order_keys share no singer key. -/
def DisjointState (st : QueueState) : Prop :=
  (∀ k ∈ st.used_keys, st.now_key ≠ some k) ∧
  (∀ k ∈ st.order_keys, st.now_key ≠ some k) ∧
  (∀ k ∈ st.used_keys, k ∉ st.order_keys)

instance (st : QueueState) : Decidable (DisjointState st) := by
  unfold DisjointState
  infer_instance

/-- A value stored for one key in the Firestore host-state document:
either the new map shape written by key_to_obj or the legacy list
shape. -/
inductive FsKeyObj where
  | obj (n p s : String)
  | legacy (elems : List String)
deriving DecidableEq, Repr

/-- The host-state document as stored in Firestore. -/
structure FsPayload where
  version : Nat
  now_key : Option FsKeyObj
  used_keys : List FsKeyObj
  order_keys : List FsKeyObj
  updated_at : String
deriving DecidableEq, Repr

/-- Embedding of key_to_obj: a key tuple becomes the map shape. -/
def key_to_obj (k : SingerKey) : FsKeyObj :=
  FsKeyObj.obj k.1 k.2.1 k.2.2

/-- Embedding of objs_to_keys: map shapes come back through the n, p, s
fields, legacy lists of length at least three through their first three
elements, and anything else is dropped. -/
def objs_to_keys (objs : List FsKeyObj) : List SingerKey :=
  objs.filterMap fun o =>
    match o with
    | FsKeyObj.obj n p s => some (n, p, s)
    | FsKeyObj.legacy (a :: b :: c :: _) => some (a, b, c)
    | FsKeyObj.legacy _ => none

/-- Embedding of keys_to_objs: key tuples are always truthy in Python,
so every key is written. -/
def keys_to_objs (keys : List SingerKey) : List FsKeyObj :=
  keys.map key_to_obj

/-- Embedding of fs_write_state: serialize a state (with the updated_at
timestamp `t`) into the stored document. -/
def fs_write_state (t : String) (st : QueueState) : FsPayload :=
  { version := st.version
    now_key := st.now_key.map key_to_obj
    used_keys := keys_to_objs st.used_keys
    order_keys := keys_to_objs st.order_keys
    updated_at := t }

/-- Embedding of fs_read_state: a missing document reads as the default
empty state; otherwise now_key accepts the legacy list or map shape and
the key lists go through objs_to_keys. -/
def fs_read_state : Option FsPayload → QueueState
  | none => { version := 0, now_key := none, used_keys := [], order_keys := [] }
  | some d =>
    { version := d.version
      now_key :=
        match d.now_key with
        | some (FsKeyObj.legacy (a :: b :: c :: _)) => some (a, b, c)
        | some (FsKeyObj.obj n p s) => some (n, p, s)
        | _ => none
      used_keys := objs_to_keys d.used_keys
      order_keys := objs_to_keys d.order_keys }

/-! Concrete singer keys used by witnesses and counterexamples. -/

/-- A concrete singer key. -/
def kA : SingerKey := ("a", "1", "sa")

/-- A concrete singer key. -/
def kB : SingerKey := ("b", "2", "sb")

/-- A concrete singer key. -/
def kC : SingerKey := ("c", "3", "sc")

/-- A concrete singer key. -/
def kD : SingerKey := ("d", "4", "sd")

/-- Every key referenced by the state corresponds to a live signup. -/
def allKeysLive (live : List SingerKey) (st : QueueState) : Prop :=
  (∀ x ∈ st.now_key.toList, x ∈ live) ∧ (∀ x ∈ st.used_keys, x ∈ live) ∧
  (∀ x ∈ st.order_keys, x ∈ live)

/-- Concrete state for the C1 witness: empty pending queue, someone
currently singing. -/
def wstC1 : QueueState :=
  { version := 7, now_key := some kA, used_keys := [kB], order_keys := [] }

/-- Concrete state for the C2 counterexample: the front of the pending
queue is also in used_keys. -/
def cstC2 : QueueState :=
  { version := 0, now_key := none, used_keys := [kA], order_keys := [kA] }

/-- Concrete state for the C2 witness. -/
def wstC2 : QueueState :=
  { version := 5, now_key := some kD, used_keys := [kC], order_keys := [kA, kB] }

/-- Concrete live keys for the C2 witness. -/
def liveC2 : List SingerKey := [kA, kB, kC, kD]

/-- Concrete state reached by the first reconciliation run of the C3
witness. -/
def wstC3 : QueueState :=
  { version := 1, now_key := none, used_keys := [], order_keys := [kA] }

/-- Concrete state for the C4 counterexample: the current singer also
appears in the pending queue. -/
def cstC4 : QueueState :=
  { version := 0, now_key := some kA, used_keys := [], order_keys := [kA] }

/-- Concrete state for the C4 witness, the skip-current scenario of the
specification. -/
def wstC4 : QueueState :=
  { version := 0, now_key := some kA, used_keys := [], order_keys := [kB, kC, kD] }

/-- Concrete state for the C5 witness. -/
def wstC5 : QueueState :=
  { version := 2, now_key := none, used_keys := [], order_keys := [kA, kB, kC] }

/-- Concrete state for the C7 counterexample: the fields are pairwise
disjoint but the pending queue holds a duplicate key. -/
def cstC7 : QueueState :=
  { version := 0, now_key := none, used_keys := [], order_keys := [kA, kA] }

/-- Concrete state for the C7 witness. -/
def wstC7 : QueueState :=
  { version := 1, now_key := some kA, used_keys := [kB], order_keys := [kC, kD] }

/-- Concrete state for the C8 witness. -/
def wstC8 : QueueState :=
  { version := 0, now_key := none, used_keys := [kA], order_keys := [] }

/-- Concrete state for the C10 witness. -/
def wstC10 : QueueState :=
  { version := 3, now_key := some kB, used_keys := [kC], order_keys := [kD] }

/-! Helper lemmas about the list operations of the embedding. -/

/-- Helper: a Python insert is a permutation of consing the element. -/
theorem pyInsert_perm {α : Type} (i : Nat) (x : α) (l : List α) :
    (pyInsert i x l).Perm (x :: l) := by
  unfold pyInsert
  have h := @List.perm_middle _ x (l.take i) (l.drop i)
  simpa [List.take_append_drop] using h

/-- Helper: membership in a Python insert. -/
theorem mem_pyInsert {α : Type} {i : Nat} {x y : α} {l : List α} :
    y ∈ pyInsert i x l ↔ y = x ∨ y ∈ l := by
  rw [(pyInsert_perm i x l).mem_iff, List.mem_cons]

/-- Helper: a Python insert past the end clamps to the length. -/
theorem pyInsert_clamp {α : Type} (i : Nat) (x : α) (l : List α) :
    pyInsert i x l = pyInsert (min i l.length) x l := by
  by_cases h : i ≤ l.length
  · rw [Nat.min_eq_left h]
  · push_neg at h
    rw [Nat.min_eq_right h.le]
    unfold pyInsert
    rw [List.take_of_length_le h.le, List.take_of_length_le le_rfl,
      List.drop_eq_nil_of_le h.le, List.drop_eq_nil_of_le le_rfl]

/-- Helper: erasing at the length of the left part removes the middle
element. -/
theorem eraseIdx_append_length {α : Type} (l₁ l₂ : List α) (x : α) :
    (l₁ ++ x :: l₂).eraseIdx l₁.length = l₁ ++ l₂ := by
  induction l₁ with
  | nil => rfl
  | cons a t ih => simp [List.eraseIdx, ih]

/-- Helper: indexing at the length of the left part reads the middle
element. -/
theorem getElem?_append_length {α : Type} (l₁ l₂ : List α) (x : α) :
    (l₁ ++ x :: l₂)[l₁.length]? = some x := by
  rw [List.getElem?_append_right le_rfl, Nat.sub_self, List.getElem?_cons_zero]

/-- Helper: a list decomposes at any index within bounds. -/
theorem take_getElem_drop {α : Type} (l : List α) (p : Nat) (h : p < l.length) :
    l.take p ++ l[p] :: l.drop (p + 1) = l := by
  induction l generalizing p with
  | nil => simp at h
  | cons a t ih =>
    cases p with
    | zero => simp
    | succ q => simpa using ih q (by simpa using h)

/-- Helper: consing the erased element back onto an erasure permutes to
the original list. -/
theorem cons_eraseIdx_perm {α : Type} (l : List α) (p : Nat) (h : p < l.length) :
    (l[p] :: l.eraseIdx p).Perm l := by
  rw [List.eraseIdx_eq_take_drop_succ]
  have h2 : (l[p] :: (l.take p ++ l.drop (p + 1))).Perm
      (l.take p ++ l[p] :: l.drop (p + 1)) := List.perm_middle.symm
  rw [take_getElem_drop l p h] at h2
  exact h2

/-- Helper: a filter of full length is the list itself. -/
theorem filter_length_eq_self {α : Type} {p : α → Bool} {l : List α}
    (h : (l.filter p).length = l.length) : l.filter p = l :=
  (List.filter_sublist l).eq_of_length h

/-- Helper: filtering away one value is the identity exactly when the
value is absent. -/
theorem filter_ne_eq_self_iff {α : Type} [DecidableEq α] {l : List α} {k : α} :
    l.filter (fun x => decide (x ≠ k)) = l ↔ k ∉ l := by
  constructor
  · intro h hk
    have := List.filter_eq_self.mp h k hk
    simp at this
  · intro hk
    apply List.filter_eq_self.mpr
    intro a ha
    simp only [decide_eq_true_eq]
    exact fun e => hk (e ▸ ha)

/-- Helper: the filtered value is gone from the filtered list. -/
theorem not_mem_filter_ne {α : Type} [DecidableEq α] (l : List α) (k : α) :
    k ∉ l.filter (fun x => decide (x ≠ k)) := by
  simp [List.mem_filter]

/-- Helper: the call-next transaction written out field by field. -/
theorem call_next_fields (live : List SingerKey) (st : QueueState) :
    call_next_singer_txn live st
      = ((st.order_keys.filter
            (fun k => decide (k ∈ live ∧ k ∉ st.used_keys ∧ st.now_key ≠ some k))).head?,
        { version := st.version + 1
          now_key := (st.order_keys.filter
            (fun k => decide (k ∈ live ∧ k ∉ st.used_keys ∧ st.now_key ≠ some k))).head?
          used_keys :=
            match st.now_key with
            | some nk => if nk ∈ st.used_keys then st.used_keys else st.used_keys ++ [nk]
            | none => st.used_keys
          order_keys := (st.order_keys.filter
            (fun k => decide (k ∈ live ∧ k ∉ st.used_keys ∧ st.now_key ≠ some k))).tail }) :=
  rfl

/-- Helper: membership in the normalized reconciliation queue. -/
theorem mem_reconcileNormalized {live : List SingerKey} {st : QueueState} {x : SingerKey} :
    x ∈ reconcileNormalized live st ↔
      x ∈ st.order_keys ∧ x ∈ live ∧ x ∉ st.used_keys ∧ st.now_key ≠ some x := by
  simp [reconcileNormalized, List.mem_filter]

/-- Helper: membership in the reconciliation candidates. -/
theorem mem_reconcileCandidates {live : List SingerKey} {st : QueueState} {x : SingerKey} :
    x ∈ reconcileCandidates live st ↔
      x ∈ live ∧ x ∉ st.used_keys ∧ st.now_key ≠ some x ∧
        x ∉ reconcileNormalized live st := by
  simp [reconcileCandidates, List.mem_filter, List.mem_dedup]

/-- Helper: reading the inserted element back out of the take-insert
decomposition. -/
theorem getElem?_take_cons_drop {α : Type} (m : List α) (q : Nat) (hq : q ≤ m.length) (k : α) :
    (m.take q ++ k :: m.drop q)[q]? = some k := by
  have h := getElem?_append_length (m.take q) (m.drop q) k
  rw [List.length_take, Nat.min_eq_left hq] at h
  exact h

/-- Helper: erasing the inserted element undoes the take-insert
decomposition. -/
theorem eraseIdx_take_cons_drop {α : Type} (m : List α) (q : Nat) (hq : q ≤ m.length) (k : α) :
    (m.take q ++ k :: m.drop q).eraseIdx q = m := by
  have h := eraseIdx_append_length (m.take q) (m.drop q) k
  rw [List.length_take, Nat.min_eq_left hq] at h
  rw [h, List.take_append_drop]

/-- Helper: the Python index of a member is within bounds. -/
theorem pyIndex_lt_length {α : Type} [DecidableEq α] {x : α} {l : List α} (h : x ∈ l) :
    pyIndex x l < l.length := by
  induction l with
  | nil => simp at h
  | cons a t ih =>
    by_cases ha : a = x
    · simp [pyIndex, ha]
    · have h2 : x ∈ t := by
        rcases List.mem_cons.mp h with h3 | h3
        · exact absurd h3.symm ha
        · exact h3
      simpa [pyIndex, ha] using Nat.succ_lt_succ (ih h2)

/-- Helper: the list holds the member at its Python index. -/
theorem getElem?_pyIndex {α : Type} [DecidableEq α] {x : α} {l : List α} (h : x ∈ l) :
    l[pyIndex x l]? = some x := by
  induction l with
  | nil => simp at h
  | cons a t ih =>
    by_cases ha : a = x
    · simp [pyIndex, ha]
    · have h2 : x ∈ t := by
        rcases List.mem_cons.mp h with h3 | h3
        · exact absurd h3.symm ha
        · exact h3
      simp [pyIndex, ha, List.getElem?_cons_succ, ih h2]

/-- Helper: consing an element known to sit at an index onto the
erasure there permutes to the original list. -/
theorem cons_eraseIdx_perm2 {α : Type} {l : List α} {p : Nat} {k : α} (h : l[p]? = some k) :
    (k :: l.eraseIdx p).Perm l := by
  obtain ⟨h1, h2⟩ := List.getElem?_eq_some.mp h
  rw [← h2]
  exact cons_eraseIdx_perm l p h1

/-- Helper: erasing a member at its index and reinserting it two slots
later (clamped the Python way) permutes the list, lands the element at
index min (old index + 2) (length - 1), and moves nothing else. -/
theorem pyInsert_eraseIdx_spec {α : Type} [DecidableEq α] (l : List α) (k : α) (hk : k ∈ l) :
    (pyInsert (min (pyIndex k l + 2) l.length) k (l.eraseIdx (pyIndex k l))).Perm l ∧
    (pyInsert (min (pyIndex k l + 2) l.length) k
        (l.eraseIdx (pyIndex k l)))[min (pyIndex k l + 2) (l.length - 1)]? = some k ∧
    (pyInsert (min (pyIndex k l + 2) l.length) k
        (l.eraseIdx (pyIndex k l))).eraseIdx (min (pyIndex k l + 2) (l.length - 1))
      = l.eraseIdx (pyIndex k l) := by
  have hp : pyIndex k l < l.length := pyIndex_lt_length hk
  have hm : (l.eraseIdx (pyIndex k l)).length = l.length - 1 := by
    rw [List.length_eraseIdx, if_pos hp]
  have hq : min (pyIndex k l + 2) (l.length - 1) ≤ (l.eraseIdx (pyIndex k l)).length := by
    rw [hm]
    exact min_le_right _ _
  have hclamp : pyInsert (min (pyIndex k l + 2) l.length) k (l.eraseIdx (pyIndex k l))
      = pyInsert (min (pyIndex k l + 2) (l.length - 1)) k (l.eraseIdx (pyIndex k l)) := by
    rw [pyInsert_clamp (min (pyIndex k l + 2) l.length) k (l.eraseIdx (pyIndex k l)), hm]
    congr 1
    omega
  rw [hclamp]
  have hins : pyInsert (min (pyIndex k l + 2) (l.length - 1)) k (l.eraseIdx (pyIndex k l))
      = (l.eraseIdx (pyIndex k l)).take (min (pyIndex k l + 2) (l.length - 1)) ++
        k :: (l.eraseIdx (pyIndex k l)).drop (min (pyIndex k l + 2) (l.length - 1)) := rfl
  refine ⟨?_, ?_, ?_⟩
  · exact (pyInsert_perm _ _ _).trans (cons_eraseIdx_perm2 (getElem?_pyIndex hk))
  · rw [hins]
    exact getElem?_take_cons_drop _ _ hq k
  · rw [hins]
    exact eraseIdx_take_cons_drop _ _ hq k

/-- Helper: a reconciliation run that writes. -/
theorem reconcileWith_eq_pos {live cand : List SingerKey} {st : QueueState}
    (h : cand ≠ [] ∨ (reconcileNormalized live st).length ≠ st.order_keys.length) :
    reconcileWith live cand st
      = { version := st.version + 1
          now_key := st.now_key
          used_keys := st.used_keys
          order_keys := reconcileNormalized live st ++ cand } := by
  unfold reconcileWith
  rw [if_pos h]

/-- Helper: a reconciliation run that does not write. -/
theorem reconcileWith_eq_neg {live cand : List SingerKey} {st : QueueState}
    (h : ¬(cand ≠ [] ∨ (reconcileNormalized live st).length ≠ st.order_keys.length)) :
    reconcileWith live cand st = st := by
  unfold reconcileWith
  rw [if_neg h]

/-- Helper: a full-length normalization kept the whole queue. -/
theorem reconcileNormalized_eq_of_length {live : List SingerKey} {st : QueueState}
    (h : (reconcileNormalized live st).length = st.order_keys.length) :
    reconcileNormalized live st = st.order_keys :=
  filter_length_eq_self h

/-- Helper: after one reconciliation run, normalizing again keeps the
whole queue. -/
theorem reconcileStep_normalized {live : List SingerKey} {st st2 : QueueState}
    (h : ReconcileStep live st st2) : reconcileNormalized live st2 = st2.order_keys := by
  obtain ⟨c, hp, he⟩ := h
  by_cases hcond : c ≠ [] ∨ (reconcileNormalized live st).length ≠ st.order_keys.length
  · rw [he, reconcileWith_eq_pos hcond]
    show (reconcileNormalized live st ++ c).filter
        (fun k => decide (k ∈ live ∧ k ∉ st.used_keys ∧ st.now_key ≠ some k))
      = reconcileNormalized live st ++ c
    apply List.filter_eq_self.mpr
    intro x hx
    simp only [decide_eq_true_eq]
    rcases List.mem_append.mp hx with hm | hm
    · have h3 := mem_reconcileNormalized.mp hm
      exact ⟨h3.2.1, h3.2.2.1, h3.2.2.2⟩
    · have h3 := mem_reconcileCandidates.mp (hp.mem_iff.mp hm)
      exact ⟨h3.1, h3.2.1, h3.2.2.1⟩
  · rw [he, reconcileWith_eq_neg hcond]
    push_neg at hcond
    exact reconcileNormalized_eq_of_length hcond.2

/-- Helper: after one reconciliation run there are no new candidates. -/
theorem reconcileStep_no_candidates {live : List SingerKey} {st st2 : QueueState}
    (h : ReconcileStep live st st2) : reconcileCandidates live st2 = [] := by
  have hnorm := reconcileStep_normalized h
  obtain ⟨c, hp, he⟩ := h
  by_cases hcond : c ≠ [] ∨ (reconcileNormalized live st).length ≠ st.order_keys.length
  · have hused : st2.used_keys = st.used_keys := by
      rw [he, reconcileWith_eq_pos hcond]
    have hnow : st2.now_key = st.now_key := by
      rw [he, reconcileWith_eq_pos hcond]
    have horder2 : st2.order_keys = reconcileNormalized live st ++ c := by
      rw [he, reconcileWith_eq_pos hcond]
    show (live.dedup.filter fun x => decide
        (x ∉ st2.used_keys ∧ st2.now_key ≠ some x ∧ x ∉ reconcileNormalized live st2)) = []
    simp only [hnorm, hused, hnow]
    apply List.filter_eq_nil_iff.mpr
    intro x hx
    simp only [decide_eq_true_eq]
    rintro ⟨hxu, hxn, hxo⟩
    apply hxo
    by_cases hin : x ∈ reconcileNormalized live st
    · rw [horder2]
      exact List.mem_append.mpr (Or.inl hin)
    · have hxl : x ∈ live := List.mem_dedup.mp hx
      have hc : x ∈ reconcileCandidates live st :=
        mem_reconcileCandidates.mpr ⟨hxl, hxu, hxn, hin⟩
      rw [horder2]
      exact List.mem_append.mpr (Or.inr (hp.mem_iff.mpr hc))
  · rw [he, reconcileWith_eq_neg hcond]
    push_neg at hcond
    rw [hcond.1] at hp
    exact (hp.symm.eq_nil)

/-- Helper: serializing keys and deserializing them is the identity. -/
theorem objs_to_keys_keys_to_objs (l : List SingerKey) :
    objs_to_keys (keys_to_objs l) = l := by
  induction l with
  | nil => rfl
  | cons k t ih => simpa [objs_to_keys, keys_to_objs, key_to_obj, List.filterMap_cons] using ih

/-! Claim theorems. -/

/-- C9: writing any QueueState with fs_write_state and reading it back
with fs_read_state yields an identical QueueState: same version, same
now_key, and the used and order key lists unchanged element for element
and in order. -/
theorem fs_round_trip (t : String) (st : QueueState) :
    fs_read_state (some (fs_write_state t st)) = st := by
  obtain ⟨v, now, used, order⟩ := st
  cases now with
  | none => simp [fs_read_state, fs_write_state, objs_to_keys_keys_to_objs]
  | some k => simp [fs_read_state, fs_write_state, objs_to_keys_keys_to_objs, key_to_obj]

/-- C10: skipping a pending key that is not in order_keys returns none
and persists the state entirely unchanged, with no version bump. -/
theorem skip_next_missing (k : SingerKey) (st : QueueState) (h : k ∉ st.order_keys) :
    skip_singer_next k st = (none, st) := by
  simp [skip_singer_next, h]

/-- C10 witness: the theorem applied at a concrete state. -/
theorem skip_next_missing_witness :
    kA ∉ wstC10.order_keys ∧ skip_singer_next kA wstC10 = (none, wstC10) :=
  ⟨by decide, skip_next_missing kA wstC10 (by decide)⟩

/-- C6: release cleanup removes the key from now_key, order_keys and
used_keys wherever it occurs, and increments the version by exactly one
if and only if at least one of those three fields changed. -/
theorem release_cleanup_spec (k : SingerKey) (st : QueueState) :
    (release_cleanup k st).now_key ≠ some k ∧
    k ∉ (release_cleanup k st).order_keys ∧
    k ∉ (release_cleanup k st).used_keys ∧
    (release_cleanup k st).now_key = (if st.now_key = some k then none else st.now_key) ∧
    (release_cleanup k st).order_keys = st.order_keys.filter (fun x => decide (x ≠ k)) ∧
    (release_cleanup k st).used_keys = st.used_keys.filter (fun x => decide (x ≠ k)) ∧
    ((release_cleanup k st).version = st.version + 1 ↔
      ((release_cleanup k st).now_key ≠ st.now_key ∨
        (release_cleanup k st).order_keys ≠ st.order_keys ∨
        (release_cleanup k st).used_keys ≠ st.used_keys)) := by
  have hnow : (release_cleanup k st).now_key
      = (if st.now_key = some k then none else st.now_key) := rfl
  have horder : (release_cleanup k st).order_keys
      = (if k ∈ st.order_keys then st.order_keys.filter (fun x => decide (x ≠ k))
        else st.order_keys) := rfl
  have hused : (release_cleanup k st).used_keys
      = (if k ∈ st.used_keys then st.used_keys.filter (fun x => decide (x ≠ k))
        else st.used_keys) := rfl
  have hver : (release_cleanup k st).version
      = (if st.now_key = some k ∨ k ∈ st.order_keys ∨ k ∈ st.used_keys then st.version + 1
        else st.version) := rfl
  have horder' : (release_cleanup k st).order_keys
      = st.order_keys.filter (fun x => decide (x ≠ k)) := by
    rw [horder]
    split
    · rfl
    · next h => exact (filter_ne_eq_self_iff.mpr h).symm
  have hused' : (release_cleanup k st).used_keys
      = st.used_keys.filter (fun x => decide (x ≠ k)) := by
    rw [hused]
    split
    · rfl
    · next h => exact (filter_ne_eq_self_iff.mpr h).symm
  refine ⟨?_, ?_, ?_, hnow, horder', hused', ?_⟩
  · rw [hnow]
    split
    · simp
    · next h => exact h
  · rw [horder']
    exact not_mem_filter_ne _ _
  · rw [hused']
    exact not_mem_filter_ne _ _
  · rw [hver]
    by_cases hc : st.now_key = some k ∨ k ∈ st.order_keys ∨ k ∈ st.used_keys
    · rw [if_pos hc]
      simp only [true_iff]
      rcases hc with h1 | h2 | h3
      · left
        rw [hnow, if_pos h1, h1]
        simp
      · right; left
        rw [horder']
        intro he
        rw [← he] at h2
        exact not_mem_filter_ne st.order_keys k h2
      · right; right
        rw [hused']
        intro he
        rw [← he] at h3
        exact not_mem_filter_ne st.used_keys k h3
    · rw [if_neg hc]
      push_neg at hc
      obtain ⟨h1, h2, h3⟩ := hc
      constructor
      · intro he
        exact absurd he.symm (Nat.succ_ne_self st.version)
      · intro hch
        rcases hch with h | h | h
        · exact (h (by rw [hnow, if_neg h1])).elim
        · exact (h (by rw [horder']; exact filter_ne_eq_self_iff.mpr h2)).elim
        · exact (h (by rw [hused']; exact filter_ne_eq_self_iff.mpr h3)).elim

/-- C1 counterexample: on the completely empty state the call-next
transaction still persists a changed state, because it always bumps the
version before writing. -/
theorem call_next_empty_counterexample :
    reset_state.order_keys = [] ∧ (call_next_singer_txn [] reset_state).2 ≠ reset_state := by
  decide

/-- C1 as amended: with an empty pending queue, call-next returns none,
clears now_key, leaves the queue empty, appends the previous now_key to
used_keys when it was set and not already used, and persists with the
version incremented by exactly one. -/
theorem call_next_empty_queue (live : List SingerKey) (st : QueueState)
    (h : st.order_keys = []) :
    (call_next_singer_txn live st).1 = none ∧
    (call_next_singer_txn live st).2.now_key = none ∧
    (call_next_singer_txn live st).2.order_keys = [] ∧
    (call_next_singer_txn live st).2.version = st.version + 1 ∧
    (call_next_singer_txn live st).2.used_keys =
      (match st.now_key with
      | some nk => if nk ∈ st.used_keys then st.used_keys else st.used_keys ++ [nk]
      | none => st.used_keys) := by
  have hres := call_next_fields live st
  rw [h] at hres
  simp only [List.filter_nil, List.head?_nil, List.tail_nil] at hres
  rw [hres]
  exact ⟨rfl, rfl, rfl, rfl, rfl⟩

/-- C1 witness: the amended theorem applied at a concrete state with an
empty queue and a current singer. -/
theorem call_next_empty_queue_witness :
    wstC1.order_keys = [] ∧
    (call_next_singer_txn [kB] wstC1).2.version = wstC1.version + 1 ∧
    (call_next_singer_txn [kB] wstC1).2.now_key = none :=
  have h := call_next_empty_queue [kB] wstC1 rfl
  ⟨rfl, h.2.2.2.1, h.2.1⟩

/-- C2 counterexample: a state whose pending queue is non-empty and
whose keys are all live, yet call-next does not promote the front of
the queue, because that front is also in used_keys and the transaction
first normalizes it away. -/
theorem call_next_nonempty_counterexample :
    cstC2.order_keys ≠ [] ∧ allKeysLive [kA] cstC2 ∧
    cstC2.order_keys.head? = some kA ∧
    (call_next_singer_txn [kA] cstC2).2.now_key = none := by
  refine ⟨by decide, ?_, by decide, by decide⟩
  refine ⟨?_, ?_, ?_⟩ <;> decide

/-- C2 as amended: when the pending queue is non-empty, all state keys
are live, and the pending queue shares no key with used_keys or
now_key, call-next appends the previous now_key to used_keys when it is
set and not already used, promotes the front of the queue to now_key,
removes it from the queue, and persists with the version incremented by
exactly one. -/
theorem call_next_nonempty (live : List SingerKey) (st : QueueState)
    (hlive : allKeysLive live st) (h1 : st.order_keys ≠ [])
    (h2 : ∀ x ∈ st.order_keys, x ∉ st.used_keys)
    (h3 : ∀ x ∈ st.order_keys, st.now_key ≠ some x) :
    (call_next_singer_txn live st).1 = st.order_keys.head? ∧
    (call_next_singer_txn live st).2.now_key = st.order_keys.head? ∧
    (call_next_singer_txn live st).2.order_keys = st.order_keys.tail ∧
    (call_next_singer_txn live st).2.version = st.version + 1 ∧
    (call_next_singer_txn live st).2.used_keys =
      (match st.now_key with
      | some nk => if nk ∈ st.used_keys then st.used_keys else st.used_keys ++ [nk]
      | none => st.used_keys) := by
  have hfilter : st.order_keys.filter
      (fun k => decide (k ∈ live ∧ k ∉ st.used_keys ∧ st.now_key ≠ some k))
      = st.order_keys := by
    apply List.filter_eq_self.mpr
    intro a ha
    simp only [decide_eq_true_eq]
    exact ⟨hlive.2.2 a ha, h2 a ha, h3 a ha⟩
  have hres := call_next_fields live st
  rw [hfilter] at hres
  rw [hres]
  exact ⟨rfl, rfl, rfl, rfl, rfl⟩

/-- C2 witness: the amended theorem applied at a concrete state. -/
theorem call_next_nonempty_witness :
    wstC2.order_keys ≠ [] ∧ allKeysLive liveC2 wstC2 ∧
    (∀ x ∈ wstC2.order_keys, x ∉ wstC2.used_keys) ∧
    (∀ x ∈ wstC2.order_keys, wstC2.now_key ≠ some x) ∧
    (call_next_singer_txn liveC2 wstC2).2.now_key = wstC2.order_keys.head? ∧
    (call_next_singer_txn liveC2 wstC2).2.order_keys = wstC2.order_keys.tail :=
  have h := call_next_nonempty liveC2 wstC2 ⟨by decide, by decide, by decide⟩
    (by decide) (by decide) (by decide)
  ⟨by decide, ⟨by decide, by decide, by decide⟩, by decide, by decide, h.2.1, h.2.2.1⟩

/-- C4 counterexample: with now_key also present in order_keys, the
skip-current transaction does not produce the order_keys the claim
predicts (reinsertion into the original queue at position
min 2 (length)), because it first removes the stray occurrence. -/
theorem skip_current_counterexample :
    cstC4.now_key = some kA ∧
    (skip_singer_current kA cstC4).2.order_keys
      ≠ pyInsert (min 2 cstC4.order_keys.length) kA cstC4.order_keys := by
  refine ⟨by decide, by decide⟩

/-- C4 as amended: when now_key is set and does not occur in
order_keys, skip-current clears now_key and reinserts the skipped key
into order_keys at position min 2 (length of order_keys), leaving
used_keys alone and persisting with the version incremented by exactly
one. -/
theorem skip_current_spec (k : SingerKey) (st : QueueState)
    (h1 : st.now_key = some k) (h2 : k ∉ st.order_keys) :
    (skip_singer_current k st).1 = Except.ok "current" ∧
    (skip_singer_current k st).2.now_key = none ∧
    (skip_singer_current k st).2.order_keys
      = pyInsert (min 2 st.order_keys.length) k st.order_keys ∧
    (skip_singer_current k st).2.used_keys = st.used_keys ∧
    (skip_singer_current k st).2.version = st.version + 1 := by
  have hfilter : st.order_keys.filter (fun x => decide (x ≠ k)) = st.order_keys :=
    filter_ne_eq_self_iff.mpr h2
  have hcond : ¬ st.now_key ≠ some k := fun hc => hc h1
  have hres : skip_singer_current k st
      = (Except.ok "current",
        { version := st.version + 1
          now_key := none
          used_keys := st.used_keys
          order_keys := pyInsert (min 2 (st.order_keys.filter (fun x => decide (x ≠ k))).length)
            k (st.order_keys.filter (fun x => decide (x ≠ k))) }) := by
    unfold skip_singer_current
    rw [if_neg hcond]
  rw [hfilter] at hres
  rw [hres]
  exact ⟨rfl, rfl, rfl, rfl, rfl⟩

/-- C4 witness: the amended theorem applied at the scenario of the
specification, now_key A with pending queue B, C, D, yielding the queue
B, C, A, D. -/
theorem skip_current_spec_witness :
    wstC4.now_key = some kA ∧ kA ∉ wstC4.order_keys ∧
    (skip_singer_current kA wstC4).2.now_key = none ∧
    (skip_singer_current kA wstC4).2.order_keys
      = pyInsert (min 2 wstC4.order_keys.length) kA wstC4.order_keys ∧
    (skip_singer_current kA wstC4).2.order_keys = [kB, kC, kA, kD] :=
  have h := skip_current_spec kA wstC4 rfl (by decide)
  ⟨rfl, by decide, h.2.1, h.2.2.1, by decide⟩

/-- C5: skipping a pending key returns the next marker, permutes the
pending queue, puts the skipped entry at index
min (old position + 2) (length - 1) — so its new position never exceeds
that bound — leaves the relative order of everything else unchanged
(erasing the entry at its new index gives back the queue with the entry
erased at its old index), and bumps the version by one. -/
theorem skip_next_spec (k : SingerKey) (st : QueueState) (hk : k ∈ st.order_keys) :
    (skip_singer_next k st).1 = some "next" ∧
    (skip_singer_next k st).2.order_keys.Perm st.order_keys ∧
    (skip_singer_next k st).2.order_keys[min (pyIndex k st.order_keys + 2)
      (st.order_keys.length - 1)]? = some k ∧
    (skip_singer_next k st).2.order_keys.eraseIdx
        (min (pyIndex k st.order_keys + 2) (st.order_keys.length - 1))
      = st.order_keys.eraseIdx (pyIndex k st.order_keys) ∧
    (skip_singer_next k st).2.version = st.version + 1 := by
  have hres : skip_singer_next k st
      = (some "next",
        { version := st.version + 1
          now_key := st.now_key
          used_keys := st.used_keys
          order_keys := pyInsert (min (pyIndex k st.order_keys + 2) st.order_keys.length) k
            (st.order_keys.eraseIdx (pyIndex k st.order_keys)) }) := by
    unfold skip_singer_next
    rw [if_pos hk]
  have h := pyInsert_eraseIdx_spec st.order_keys k hk
  rw [hres]
  dsimp only
  exact ⟨rfl, h.1, h.2.1, h.2.2, rfl⟩

/-- C5 witness: the theorem applied at a concrete three-element queue,
where skipping the middle entry sends it to the tail. -/
theorem skip_next_spec_witness :
    kB ∈ wstC5.order_keys ∧
    (skip_singer_next kB wstC5).2.order_keys.Perm wstC5.order_keys ∧
    (skip_singer_next kB wstC5).2.order_keys[min (pyIndex kB wstC5.order_keys + 2)
      (wstC5.order_keys.length - 1)]? = some kB ∧
    (skip_singer_next kB wstC5).2.order_keys = [kA, kC, kB] :=
  have h := skip_next_spec kB wstC5 (by decide)
  ⟨by decide, h.2.1, h.2.2.1, by decide⟩

/-- C3: reconciliation is idempotent: a second run with the same live
keys and no intervening change leaves the state of the first run
untouched, version included. -/
theorem reconcile_idempotent (live : List SingerKey) (st st2 st3 : QueueState)
    (h1 : ReconcileStep live st st2) (h2 : ReconcileStep live st2 st3) : st3 = st2 := by
  have hnorm := reconcileStep_normalized h1
  have hcand := reconcileStep_no_candidates h1
  obtain ⟨c2, hp2, he2⟩ := h2
  rw [hcand] at hp2
  have hc2 : c2 = [] := hp2.eq_nil
  rw [he2]
  apply reconcileWith_eq_neg
  rw [hc2, hnorm]
  simp

/-- C3 witness: the theorem applied at a concrete run that enqueues one
new live key and then reconciles again. -/
theorem reconcile_idempotent_witness :
    ReconcileStep [kA] reset_state wstC3 ∧ ReconcileStep [kA] wstC3 wstC3 ∧ wstC3 = wstC3 :=
  have ha : ReconcileStep [kA] reset_state wstC3 := ⟨[kA], by decide, by decide⟩
  have hb : ReconcileStep [kA] wstC3 wstC3 := ⟨[], by decide, by decide⟩
  ⟨ha, hb, reconcile_idempotent [kA] reset_state wstC3 wstC3 ha hb⟩

/-- C8: a used key whose signup is still live is never re-added to the
pending queue by reconciliation. -/
theorem reconcile_no_resurrection (live : List SingerKey) (st st2 : QueueState) (k : SingerKey)
    (h : ReconcileStep live st st2) (hused : k ∈ st.used_keys) (hlive : k ∈ live) :
    k ∉ st2.order_keys := by
  obtain ⟨c, hp, he⟩ := h
  by_cases hcond : c ≠ [] ∨ (reconcileNormalized live st).length ≠ st.order_keys.length
  · rw [he, reconcileWith_eq_pos hcond]
    intro hmem
    rcases List.mem_append.mp hmem with hm | hm
    · exact (mem_reconcileNormalized.mp hm).2.2.1 hused
    · exact (mem_reconcileCandidates.mp (hp.mem_iff.mp hm)).2.1 hused
  · rw [he, reconcileWith_eq_neg hcond]
    push_neg at hcond
    have hfull := reconcileNormalized_eq_of_length hcond.2
    intro hmem
    rw [← hfull] at hmem
    exact (mem_reconcileNormalized.mp hmem).2.2.1 hused

/-- C8 witness: the theorem applied at a concrete state with one used
and still-live key. -/
theorem reconcile_no_resurrection_witness :
    ReconcileStep [kA] wstC8 wstC8 ∧ kA ∈ wstC8.used_keys ∧ kA ∈ [kA] ∧
    kA ∉ wstC8.order_keys :=
  have ha : ReconcileStep [kA] wstC8 wstC8 := ⟨[], by decide, by decide⟩
  ⟨ha, by decide, by decide,
    reconcile_no_resurrection [kA] wstC8 wstC8 kA ha (by decide) (by decide)⟩

/-- C7 counterexample: a state whose three fields are pairwise disjoint
but whose pending queue repeats a live key; calling next promotes one
copy to now_key while the other stays queued, so the produced state is
not disjoint. -/
theorem disjoint_counterexample :
    DisjointState cstC7 ∧ ¬ DisjointState (call_next_singer_txn [kA] cstC7).2 := by
  refine ⟨?_, ?_⟩ <;> decide

/-- C7 as amended: starting from a state whose now_key, used_keys and
order_keys are pairwise disjoint and whose order_keys has no duplicate
key, every coordinator operation (any reconciliation run, call-next,
skip-current, skip-pending, release-cleanup and reset) produces a state
whose three fields again share no singer key. -/
theorem ops_preserve_disjoint (live : List SingerKey) (st : QueueState)
    (hd : DisjointState st) (hnd : st.order_keys.Nodup) :
    (∀ st2, ReconcileStep live st st2 → DisjointState st2) ∧
    DisjointState (call_next_singer_txn live st).2 ∧
    (∀ k, DisjointState (skip_singer_current k st).2) ∧
    (∀ k, DisjointState (skip_singer_next k st).2) ∧
    (∀ k, DisjointState (release_cleanup k st)) ∧
    DisjointState reset_state := by
  obtain ⟨hd1, hd2, hd3⟩ := hd
  refine ⟨?_, ?_, ?_, ?_, ?_, ?_⟩
  · rintro st2 ⟨c, hp, he⟩
    by_cases hcond : c ≠ [] ∨ (reconcileNormalized live st).length ≠ st.order_keys.length
    · rw [he, reconcileWith_eq_pos hcond]
      refine ⟨hd1, ?_, ?_⟩
      · intro x hx
        rcases List.mem_append.mp hx with hm | hm
        · exact (mem_reconcileNormalized.mp hm).2.2.2
        · exact (mem_reconcileCandidates.mp (hp.mem_iff.mp hm)).2.2.1
      · intro x hx hx2
        rcases List.mem_append.mp hx2 with hm | hm
        · exact (mem_reconcileNormalized.mp hm).2.2.1 hx
        · exact (mem_reconcileCandidates.mp (hp.mem_iff.mp hm)).2.1 hx
    · rw [he, reconcileWith_eq_neg hcond]
      exact ⟨hd1, hd2, hd3⟩
  · have husedm : ∀ x, x ∈ (call_next_singer_txn live st).2.used_keys →
        x ∈ st.used_keys ∨ st.now_key = some x := by
      intro x hx
      have hused2 : (call_next_singer_txn live st).2.used_keys
          = (match st.now_key with
            | some nk => if nk ∈ st.used_keys then st.used_keys else st.used_keys ++ [nk]
            | none => st.used_keys) := rfl
      rw [hused2] at hx
      split at hx
      next nk hnk =>
        split at hx
        · exact Or.inl hx
        · rcases List.mem_append.mp hx with hm | hm
          · exact Or.inl hm
          · rw [List.mem_singleton] at hm
            subst hm
            exact Or.inr hnk
      next hnk => exact Or.inl hx
    have hnow2 : (call_next_singer_txn live st).2.now_key
        = (reconcileNormalized live st).head? := rfl
    have horder2 : (call_next_singer_txn live st).2.order_keys
        = (reconcileNormalized live st).tail := rfl
    have hfnodup : (reconcileNormalized live st).Nodup := hnd.filter _
    refine ⟨?_, ?_, ?_⟩
    · intro x hx heq
      rw [hnow2] at heq
      cases hfo : reconcileNormalized live st with
      | nil =>
        rw [hfo] at heq
        simp at heq
      | cons a t =>
        rw [hfo] at heq
        simp only [List.head?_cons, Option.some.injEq] at heq
        subst heq
        have hain : a ∈ reconcileNormalized live st := by
          rw [hfo]
          exact List.mem_cons_self a t
        have hprops := mem_reconcileNormalized.mp hain
        exact hprops.2.2.1 ((husedm _ hx).resolve_right hprops.2.2.2)
    · intro x hx heq
      rw [horder2] at hx
      rw [hnow2] at heq
      cases hfo : reconcileNormalized live st with
      | nil =>
        rw [hfo] at hx
        simp at hx
      | cons a t =>
        rw [hfo] at hx heq
        simp only [List.tail_cons] at hx
        simp only [List.head?_cons, Option.some.injEq] at heq
        subst heq
        have hnd2 := hfnodup
        rw [hfo] at hnd2
        exact (List.nodup_cons.mp hnd2).1 hx
    · intro x hx
      rw [horder2]
      intro hx2
      cases hfo : reconcileNormalized live st with
      | nil =>
        rw [hfo] at hx2
        simp at hx2
      | cons a t =>
        rw [hfo] at hx2
        simp only [List.tail_cons] at hx2
        have hxin : x ∈ reconcileNormalized live st := by
          rw [hfo]
          exact List.mem_cons_of_mem a hx2
        have hprops := mem_reconcileNormalized.mp hxin
        rcases husedm _ hx with hm | hm
        · exact hprops.2.2.1 hm
        · exact hprops.2.2.2 hm
  · intro k
    by_cases hcur : st.now_key ≠ some k
    · have hres : (skip_singer_current k st).2 = st := by
        unfold skip_singer_current
        rw [if_pos hcur]
      rw [hres]
      exact ⟨hd1, hd2, hd3⟩
    · push_neg at hcur
      have hres : (skip_singer_current k st).2
          = { version := st.version + 1
              now_key := none
              used_keys := st.used_keys
              order_keys := pyInsert
                (min 2 (st.order_keys.filter (fun x => decide (x ≠ k))).length)
                k (st.order_keys.filter (fun x => decide (x ≠ k))) } := by
        unfold skip_singer_current
        rw [if_neg (by simp [hcur])]
      rw [hres]
      refine ⟨?_, ?_, ?_⟩
      · intro x hx heq
        exact Option.noConfusion heq
      · intro x hx heq
        exact Option.noConfusion heq
      · intro x hx hx2
        rcases mem_pyInsert.mp hx2 with hxk | hxm
        · apply hd1 x hx
          rw [hcur, hxk]
        · exact hd3 x hx (List.mem_of_mem_filter hxm)
  · intro k
    by_cases hk : k ∈ st.order_keys
    · have hres : (skip_singer_next k st).2
          = { version := st.version + 1
              now_key := st.now_key
              used_keys := st.used_keys
              order_keys := pyInsert (min (pyIndex k st.order_keys + 2) st.order_keys.length) k
                (st.order_keys.eraseIdx (pyIndex k st.order_keys)) } := by
        unfold skip_singer_next
        rw [if_pos hk]
      rw [hres]
      have hsub : ∀ x, x ∈ pyInsert (min (pyIndex k st.order_keys + 2) st.order_keys.length) k
          (st.order_keys.eraseIdx (pyIndex k st.order_keys)) → x ∈ st.order_keys := by
        intro x hx
        rcases mem_pyInsert.mp hx with hxk | hxm
        · rw [hxk]
          exact hk
        · exact (List.eraseIdx_sublist _ _).subset hxm
      refine ⟨hd1, ?_, ?_⟩
      · intro x hx
        exact hd2 x (hsub x hx)
      · intro x hx hx2
        exact hd3 x hx (hsub x hx2)
    · have hres : (skip_singer_next k st).2 = st := by
        unfold skip_singer_next
        rw [if_neg hk]
      rw [hres]
      exact ⟨hd1, hd2, hd3⟩
  · intro k
    have hnowR : (release_cleanup k st).now_key = none ∨
        (release_cleanup k st).now_key = st.now_key := by
      have h2 : (release_cleanup k st).now_key
          = (if st.now_key = some k then none else st.now_key) := rfl
      rw [h2]
      split
      · exact Or.inl rfl
      · exact Or.inr rfl
    have hsubO : ∀ x, x ∈ (release_cleanup k st).order_keys → x ∈ st.order_keys := by
      have h2 : (release_cleanup k st).order_keys
          = (if k ∈ st.order_keys then st.order_keys.filter (fun x => decide (x ≠ k))
            else st.order_keys) := rfl
      intro x hx
      rw [h2] at hx
      split at hx
      · exact List.mem_of_mem_filter hx
      · exact hx
    have hsubU : ∀ x, x ∈ (release_cleanup k st).used_keys → x ∈ st.used_keys := by
      have h2 : (release_cleanup k st).used_keys
          = (if k ∈ st.used_keys then st.used_keys.filter (fun x => decide (x ≠ k))
            else st.used_keys) := rfl
      intro x hx
      rw [h2] at hx
      split at hx
      · exact List.mem_of_mem_filter hx
      · exact hx
    refine ⟨?_, ?_, ?_⟩
    · intro x hx
      rcases hnowR with hn | hn
      · rw [hn]
        exact fun h => Option.noConfusion h
      · rw [hn]
        exact hd1 x (hsubU x hx)
    · intro x hx
      rcases hnowR with hn | hn
      · rw [hn]
        exact fun h => Option.noConfusion h
      · rw [hn]
        exact hd2 x (hsubO x hx)
    · intro x hx hx2
      exact hd3 x (hsubU x hx) (hsubO x hx2)
  · exact ⟨by decide, by decide, by decide⟩

/-- C7 witness: the amended theorem applied at a concrete disjoint
duplicate-free state, read off for the call-next and release-cleanup
operations. -/
theorem ops_preserve_disjoint_witness :
    DisjointState wstC7 ∧ wstC7.order_keys.Nodup ∧
    DisjointState (call_next_singer_txn [kC, kD] wstC7).2 ∧
    DisjointState (release_cleanup kB wstC7) :=
  have h := ops_preserve_disjoint [kC, kD] wstC7 (by decide) (by decide)
  ⟨by decide, by decide, h.2.1, h.2.2.2.2.1 kB⟩

end LosEmos
